import Mathlib

/-!
Verification of `create_package.py`, a script that converts a directory of
Unity asset files (each with a `.meta` sidecar holding a GUID) into a
gzip-compressed tar archive (`.unitypackage`).

The filesystem visible to the script is modelled as a finite tree of named
nodes (`Node`/`Children`).  Paths are lists of components, relative to the
script's working directory; `os.path.join` on Linux concatenates components
with a forward slash, so a component list renders to the path string via
`String.intercalate "/"`.  Reading a file yields its text content; any
failing read (missing path, or the path names a directory) is `none`.
-/

namespace CreatePackage

/-- A path, as the list of its components relative to the working directory. -/
abbrev Path := List String

mutual

/-- A node of the filesystem tree: a text file or a directory. -/
inductive Node where
  | file (content : String)
  | dir (children : Children)
deriving DecidableEq

/-- The ordered children of a directory (order models `os.scandir` order). -/
inductive Children where
  | nil
  | cons (name : String) (node : Node) (rest : Children)
deriving DecidableEq

end

/-- Names of all children, in order. -/
def childNames : Children → List String
  | .nil => []
  | .cons name _ rest => name :: childNames rest

/-- Names of the sub-directories, in order (the `dirs` list of an `os.walk`
frame). -/
def dirNamesC : Children → List String
  | .nil => []
  | .cons name (.dir _) rest => name :: dirNamesC rest
  | .cons _ (.file _) rest => dirNamesC rest

/-- Names of the plain files, in order (the `files` list of an `os.walk`
frame). -/
def fileNamesC : Children → List String
  | .nil => []
  | .cons name (.file _) rest => name :: fileNamesC rest
  | .cons _ (.dir _) rest => fileNamesC rest

/-- Find the child with the given name (first match). -/
def findChild : Children → String → Option Node
  | .nil, _ => none
  | .cons name n rest, key => if name = key then some n else findChild rest key

/-- Resolve a path to a node, descending component by component. -/
def Node.lookup : Node → Path → Option Node
  | n, [] => some n
  | .file _, _ :: _ => none
  | .dir cs, name :: rest =>
      match findChild cs name with
      | some c => c.lookup rest
      | none => none

/-- `os.path.exists`: the path resolves to some node (file or directory). -/
def pathExists (fs : Node) (p : Path) : Bool :=
  (fs.lookup p).isSome

/-- Read a file as text (`open(p).read()`): `none` models any read failure
(path missing, or the path is a directory). -/
def readFile (fs : Node) (p : Path) : Option String :=
  match fs.lookup p with
  | some (.file content) => some content
  | _ => none

/-- A list of names with no duplicates, decided computably. -/
def distinctNames : List String → Bool
  | [] => true
  | x :: xs => (!xs.contains x) && distinctNames xs

mutual

/-- Every directory in the tree has pairwise-distinct child names (true of
any real on-disk tree). -/
def nodupNames : Node → Bool
  | .file _ => true
  | .dir cs => distinctNames (childNames cs) && nodupNamesC cs

/-- `nodupNames` for every node of a children list. -/
def nodupNamesC : Children → Bool
  | .nil => true
  | .cons _ n rest => nodupNames n && nodupNamesC rest

end

/-- `p + ".meta"` on path strings: appends `".meta"` to the last component. -/
def metaPath : Path → Path
  | [] => [".meta"]
  | [x] => [x ++ ".meta"]
  | x :: y :: rest => x :: metaPath (y :: rest)

/-- `file.endswith(".meta")`: suffix test on the characters. -/
def hasMetaSuffix (s : String) : Bool :=
  ".meta".data.isSuffixOf s.data

/-- `path_string.replace("\\", "/")`: the pattern is a single character, so
the replacement acts character by character. -/
def backslashToSlash (s : String) : String :=
  String.mk (s.data.map (fun c => if c = '\\' then '/' else c))

/-- The string the script stores for a component path: components joined by
`/` (Linux `os.path.join`), then `.replace("\\", "/")`. -/
def normPath (p : Path) : String :=
  backslashToSlash (String.intercalate "/" p)

/-- One `os.walk` frame: `(root, dirs, files)`. -/
abbrev Frame := Path × List String × List String

mutual

/-- `os.walk` (top-down) from a node situated at path `p`: yields the frame
for the node itself (when it is a directory), then walks each sub-directory
in order.  Walking a plain file yields nothing. -/
def walkNode : Path → Node → List Frame
  | _, .file _ => []
  | p, .dir cs => (p, dirNamesC cs, fileNamesC cs) :: walkChildren p cs

/-- Walk each sub-directory of a children list, in order. -/
def walkChildren : Path → Children → List Frame
  | _, .nil => []
  | p, .cons name n rest =>
      (match n with
       | .dir cs => walkNode (p ++ [name]) (.dir cs)
       | .file _ => []) ++ walkChildren p rest

end

mutual

/-- The relative component paths (`[]` for the node itself) of all
directories of a tree, in the order `os.walk` visits them. -/
def dirsOf : Node → List Path
  | .file _ => []
  | .dir cs => [] :: dirsChildren cs

/-- `dirsOf` for every sub-directory of a children list, each path prefixed
with the child's name. -/
def dirsChildren : Children → List Path
  | .nil => []
  | .cons name n rest =>
      (match n with
       | .file _ => []
       | .dir ds => (dirsOf (.dir ds)).map (fun s => name :: s)) ++ dirsChildren rest

end

/-- `os.walk(base)`: walking a path that does not resolve (or resolves to a
plain file) yields no frames; `os.walk` swallows the `scandir` error. -/
def osWalk (fs : Node) (base : Path) : List Frame :=
  match fs.lookup base with
  | some n => walkNode base n
  | none => []

/-- The dictionary built by `get_all_assets` for each asset. -/
structure Asset where
  path : String
  meta : Path
  is_folder : Bool
  asset : Option Path
deriving DecidableEq

/-- The record appended for a directory with an adjacent `.meta` sidecar. -/
def dirAssetRecord (p : Path) : Asset :=
  { path := normPath p, meta := metaPath p, is_folder := true, asset := none }

/-- The record appended for a file with an adjacent `.meta` sidecar. -/
def fileAssetRecord (p : Path) : Asset :=
  { path := normPath p, meta := metaPath p, is_folder := false, asset := some p }

/-- The records one `os.walk` frame contributes, in order: the directory's
own record (when `root + ".meta"` exists), then one record per non-`.meta`
file whose sidecar `file + ".meta"` exists. -/
def frameAssets (fs : Node) (fr : Frame) : List Asset :=
  (if pathExists fs (metaPath fr.1) then [dirAssetRecord fr.1] else []) ++
    fr.2.2.filterMap (fun file =>
      if hasMetaSuffix file then none
      else if pathExists fs (metaPath (fr.1 ++ [file])) then
        some (fileAssetRecord (fr.1 ++ [file]))
      else none)

/-- `get_all_assets(base_path)`: collect the records of every walk frame in
order, then `insert(0, ...)` the synthetic record for the root folder when
`base_path + ".meta"` exists. -/
def get_all_assets (fs : Node) (base_path : Path) : List Asset :=
  let assets := (osWalk fs base_path).flatMap (frameAssets fs)
  if pathExists fs (metaPath base_path) then dirAssetRecord base_path :: assets
  else assets

/-! ## Identifier extractor: `extract_guid` and the regex `guid:\s*([a-f0-9]+)` -/

/-- Python's `\s` character class (`re` on `str`): ASCII whitespace plus the
Unicode whitespace characters. -/
def isPySpace (c : Char) : Bool :=
  c ∈ [' ', '\t', '\n', '\r', '\x0b', '\x0c',
       '\x1c', '\x1d', '\x1e', '\x1f', '\x85', '\xa0',
       ' ', ' ', ' ', ' ', ' ', ' ', ' ',
       ' ', ' ', ' ', ' ', ' ',
       ' ', ' ', ' ', ' ', '　']

/-- The character class `[a-f0-9]`. -/
def isLowerHexDigit (c : Char) : Bool :=
  ('a' ≤ c && c ≤ 'f') || ('0' ≤ c && c ≤ '9')

/-- Try to match `guid:\s*([a-f0-9]+)` at the start of the character list;
on success return group 1.  `\s*` is greedy and whitespace is disjoint from
`[a-f0-9]`, so the match skips the maximal whitespace run and then needs at
least one `[a-f0-9]` character; group 1 is the maximal `[a-f0-9]` run. -/
def matchGuidAt : List Char → Option String
  | 'g' :: 'u' :: 'i' :: 'd' :: ':' :: rest =>
      let tok := (rest.dropWhile isPySpace).takeWhile isLowerHexDigit
      if tok.isEmpty then none else some (String.mk tok)
  | _ => none

/-- `re.search`: try the pattern at each position, left to right, and return
the first match. -/
def searchGuid : List Char → Option String
  | [] => none
  | c :: rest =>
      match matchGuidAt (c :: rest) with
      | some t => some t
      | none => searchGuid rest

/-- `extract_guid(meta_file_path)`: read the file and search for the GUID
pattern.  Any exception from the read is caught (an error line is printed)
and `None` is returned; a readable file with no match also yields `None`. -/
def extract_guid (fs : Node) (meta_file_path : Path) : Option String :=
  match readFile fs meta_file_path with
  | none => none
  | some content => searchGuid content.data

/-! ## Staging builder and archiver: `create_unitypackage` -/

/-- The on-disk content of one identifier-named staging directory:
a `pathname` file, an `asset.meta` copy, and (for file assets) an `asset`
copy. -/
structure StagedEntry where
  pathname : String
  assetMeta : String
  asset : Option String
deriving DecidableEq

/-- The staging directory: its identifier-named sub-directories, in creation
order. -/
abbrev Staging := List (String × StagedEntry)

/-- The entry of the staging directory named `guid`, if any. -/
def findEntry (st : Staging) (guid : String) : Option StagedEntry :=
  match st with
  | [] => none
  | (g, e) :: rest => if g = guid then some e else findEntry rest guid

/-- Create or replace the entry named `guid` (`os.makedirs(..., exist_ok =
True)` followed by writes into the directory). -/
def setEntry : Staging → String → StagedEntry → Staging
  | [], guid, e => [(guid, e)]
  | (g, e') :: rest, guid, e =>
      if g = guid then (guid, e) :: rest else (g, e') :: setEntry rest guid e

/-- Process one asset of the loop body of `create_unitypackage`:
extract the GUID (skip the asset when there is none — `if not guid`),
create the GUID folder, write `pathname`, copy the sidecar to `asset.meta`,
and for non-folder assets copy the content to `asset`.  A failing copy
(`shutil.copy2` raising) is a fatal error that aborts the run.  An `asset`
file already present in the GUID folder is only replaced when this asset is
a file asset; nothing deletes it for a folder asset. -/
def stageAsset (fs : Node) (st : Staging) (a : Asset) : Except String Staging :=
  match extract_guid fs a.meta with
  | none => .ok st
  | some guid =>
      if guid = "" then .ok st
      else
        match readFile fs a.meta with
        | none => .error ("copy2 failed: " ++ normPath a.meta)
        | some metaContent =>
            match a.is_folder, a.asset with
            | false, some src =>
                match readFile fs src with
                | none => .error ("copy2 failed: " ++ normPath src)
                | some c =>
                    .ok (setEntry st guid
                      { pathname := a.path, assetMeta := metaContent, asset := some c })
            | _, _ =>
                .ok (setEntry st guid
                  { pathname := a.path, assetMeta := metaContent,
                    asset := (findEntry st guid).bind StagedEntry.asset })

/-- The staging loop (`for asset in assets:`): process each asset in order;
a fatal error from a failing copy propagates and stops the loop. -/
def stageFold (fs : Node) : Staging → List Asset → Except String Staging
  | st, [] => .ok st
  | st, a :: rest =>
      match stageAsset fs st a with
      | .ok st' => stageFold fs st' rest
      | .error e => .error e

/-- The staging loop over the whole asset sequence, starting from the fresh
empty temporary directory. -/
def stageAssets (fs : Node) (assets : List Asset) : Except String Staging :=
  stageFold fs [] assets

/-- One member of the tar archive: its arcname (as components) and its
content (`none` for a directory member). -/
abbrev TarMember := List String × Option String

/-- `tar.add(item_path, arcname = item)` for one staging entry: the
directory member itself, then its files. -/
def tarAddEntry (item : String) (e : StagedEntry) : List TarMember :=
  ([item], none) ::
  ([item, "pathname"], some e.pathname) ::
  ([item, "asset.meta"], some e.assetMeta) ::
  (match e.asset with
   | some c => [([item, "asset"], some c)]
   | none => [])

/-- The archive: `tar.add` applied to each child of the staging directory
(`os.listdir(temp_dir)`), in order. -/
def makeTar (st : Staging) : List TarMember :=
  st.flatMap (fun ge => tarAddEntry ge.1 ge.2)

/-- The content stored in the archive under an arcname (first member wins),
`none` when the arcname is absent or is a directory member. -/
def tarContent (tar : List TarMember) (p : List String) : Option String :=
  match tar.find? (fun m => m.1 = p) with
  | some m => m.2
  | none => none

/-- The names of the top-level directory members of the archive, in order. -/
def tarTopMembers (tar : List TarMember) : List String :=
  tar.filterMap (fun m =>
    match m with
    | ([x], none) => some x
    | _ => none)

/-- Reconstruct the staging entry named `g` from the archive members. -/
def tarExtractEntry (tar : List TarMember) (g : String) : Option StagedEntry :=
  match tarContent tar [g, "pathname"], tarContent tar [g, "asset.meta"] with
  | some p, some m =>
      some { pathname := p, assetMeta := m, asset := tarContent tar [g, "asset"] }
  | _, _ => none

/-- The body of the `try` block of `create_unitypackage`, after the
temporary directory is created: stage every asset, then write the archive.
`archive_ok` models whether opening/writing the output file succeeds; when
it does not, `tarfile.open` raises and the error is fatal. -/
def pipelineBody (fs : Node) (assets : List Asset) (archive_ok : Bool) :
    Except String (List TarMember) :=
  match stageAssets fs assets with
  | .error e => .error e
  | .ok st => if archive_ok then .ok (makeTar st) else .error "cannot write archive"

/-- The observable result of one run of `create_unitypackage`: the outcome
(the archive, or the fatal error that propagated) and whether the temporary
staging directory still exists when the function returns. -/
structure RunResult where
  outcome : Except String (List TarMember)
  temp_dir_exists : Bool

/-- `create_unitypackage(output_path, assets_folder)`: enumerate the assets,
create the temporary staging directory, run the `try` body, and in both the
normal and the exceptional case run the `finally` block, which removes the
temporary directory (`shutil.rmtree`). -/
def create_unitypackage (fs : Node) (assets_folder : Path) (archive_ok : Bool) :
    RunResult :=
  match pipelineBody fs (get_all_assets fs assets_folder) archive_ok with
  | .ok tar => { outcome := .ok tar, temp_dir_exists := false }
  | .error e => { outcome := .error e, temp_dir_exists := false }

/-! ## Concrete fixtures (used to instantiate theorems on closed inputs) -/

/-- The children of the sample `Scripts` directory. -/
def scriptsChildren : Children :=
  .cons "Foo.cs" (.file "class Foo")
    (.cons "Foo.cs.meta" (.file "guid: bbbb2222\n") .nil)

/-- The sample `Assets/Deffatest` directory node. -/
def deffatestNode : Node :=
  .dir (.cons "Scripts.meta" (.file "guid: aaaa1111\n")
    (.cons "Scripts" (.dir scriptsChildren) .nil))

/-- A small concrete filesystem: the script directory containing
`Assets/Deffatest` with a folder asset, a file asset, sidecars for both, a
sidecar for the root folder, and a dangling sidecar `Assets/Missing.meta`
whose directory does not exist. -/
def sampleFS : Node :=
  .dir (.cons "Assets" (.dir
    (.cons "Deffatest.meta" (.file "fileFormatVersion: 2\nguid: 00ff00ff\n")
    (.cons "Deffatest" deffatestNode
    (.cons "Missing.meta" (.file "guid: dddd4444\n") .nil)))) .nil)

/-- The staging entry of the folder asset `Assets/Deffatest`. -/
def rootEntry : StagedEntry :=
  ⟨"Assets/Deffatest", "fileFormatVersion: 2\nguid: 00ff00ff\n", none⟩

/-- The staging entry of the folder asset `Assets/Deffatest/Scripts`. -/
def scriptsEntry : StagedEntry :=
  ⟨"Assets/Deffatest/Scripts", "guid: aaaa1111\n", none⟩

/-- The staging entry of the file asset `Assets/Deffatest/Scripts/Foo.cs`. -/
def fooEntry : StagedEntry :=
  ⟨"Assets/Deffatest/Scripts/Foo.cs", "guid: bbbb2222\n", some "class Foo"⟩

/-- The staging directory produced for `sampleFS` from root
`Assets/Deffatest`. -/
def sampleStaging : Staging :=
  [("00ff00ff", rootEntry), ("aaaa1111", scriptsEntry), ("bbbb2222", fooEntry)]

/-- A filesystem in which a file asset `B.cs` and a folder asset `A`
resolve to the same identifier `abcd`. -/
def collideFS : Node :=
  .dir (.cons "A" (.dir .nil)
    (.cons "A.meta" (.file "guid: abcd")
    (.cons "B.cs" (.file "content B")
    (.cons "B.cs.meta" (.file "guid: abcd") .nil))))

/-- The staging entry left by the file asset `B.cs` of `collideFS`. -/
def collideFileEntry : StagedEntry := ⟨"B.cs", "guid: abcd", some "content B"⟩

/-- The staging entry of the folder asset `A` of `collideFS`, staged alone. -/
def collideDirEntry : StagedEntry := ⟨"A", "guid: abcd", none⟩

/-- The entry surviving after staging `B.cs` and then `A` of `collideFS`:
`pathname` and `asset.meta` of the folder asset, the `asset` file of the
earlier file asset. -/
def collideMergedEntry : StagedEntry := ⟨"A", "guid: abcd", some "content B"⟩

/-- A filesystem with a sidecar whose GUID value has a lowercase-hex run
followed by uppercase characters, preceded by text containing no `g`. -/
def truncFS : Node := .dir (.cons "T.meta" (.file "id: x guid: ab12XY\n") .nil)

/-! ## Helper lemmas -/

theorem matchGuidAt_nil : matchGuidAt [] = none := rfl

theorem matchGuidAt_ne_some_empty (l : List Char) (t : String)
    (h : matchGuidAt l = some t) : t ≠ "" := by
  unfold matchGuidAt at h
  split at h
  · simp only [] at h
    split at h
    · exact absurd h (by simp)
    · rename_i htok
      intro hempty
      have hdata : t.data = (List.dropWhile isPySpace _).takeWhile isLowerHexDigit :=
        congrArg String.data (Option.some.inj h).symm
      rw [hempty] at hdata
      rw [List.isEmpty_iff] at htok
      exact htok hdata.symm
  · exact absurd h (by simp)

theorem searchGuid_ne_some_empty (cs : List Char) (g : String)
    (h : searchGuid cs = some g) : g ≠ "" := by
  induction cs with
  | nil => simp [searchGuid] at h
  | cons c rest ih =>
      rw [searchGuid] at h
      cases h0 : matchGuidAt (c :: rest) with
      | some t =>
          rw [h0] at h
          exact Option.some.inj h ▸ matchGuidAt_ne_some_empty _ _ h0
      | none => rw [h0] at h; exact ih h

theorem extract_guid_ne_some_empty (fs : Node) (p : Path) (g : String)
    (h : extract_guid fs p = some g) : g ≠ "" := by
  unfold extract_guid at h
  cases hr : readFile fs p with
  | none => rw [hr] at h; exact absurd h (by simp)
  | some content => rw [hr] at h; exact searchGuid_ne_some_empty _ _ h

theorem extract_guid_readFile_isSome (fs : Node) (p : Path) (g : String)
    (h : extract_guid fs p = some g) : ∃ c, readFile fs p = some c := by
  unfold extract_guid at h
  cases hr : readFile fs p with
  | none => rw [hr] at h; exact absurd h (by simp)
  | some content => exact ⟨content, rfl⟩

theorem findEntry_setEntry (st : Staging) (g g' : String) (e : StagedEntry) :
    findEntry (setEntry st g e) g' = if g = g' then some e else findEntry st g' := by
  induction st with
  | nil => simp [setEntry, findEntry]
  | cons he rest ih =>
      obtain ⟨g0, e0⟩ := he
      by_cases h0 : g0 = g
      · subst h0
        simp only [setEntry, if_pos rfl, findEntry]
        by_cases h1 : g0 = g' <;> simp [h1]
      · simp only [setEntry, if_neg h0, findEntry, ih]
        by_cases h1 : g0 = g'
        · subst h1
          simp [if_neg (Ne.symm h0)]
        · simp [h1]

/-! ## Claim C6 -/

/-- Claim C6: after any run of the pipeline, whether it completes
successfully or aborts with a fatal error after the staging directory was
created, the temporary staging directory no longer exists: the cleanup of
the `finally` block executes on the success path and on the failure path. -/
theorem C6_cleanup (fs : Node) (assets_folder : Path) (archive_ok : Bool) :
    (create_unitypackage fs assets_folder archive_ok).temp_dir_exists = false := by
  unfold create_unitypackage
  cases h : pipelineBody fs (get_all_assets fs assets_folder) archive_ok <;> simp [h]

/-! ## Claim C2 -/

theorem stageAsset_isSome (fs : Node) (st st' : Staging) (a : Asset)
    (hok : stageAsset fs st a = .ok st') (g : String) :
    (findEntry st' g).isSome = true ↔
      (findEntry st g).isSome = true ∨ extract_guid fs a.meta = some g := by
  unfold stageAsset at hok
  cases hx : extract_guid fs a.meta with
  | none =>
      rw [hx] at hok
      have : st' = st := (Except.ok.inj hok).symm
      subst this
      simp [hx]
  | some guid =>
      rw [hx] at hok
      simp only [] at hok
      rw [if_neg (extract_guid_ne_some_empty fs a.meta guid hx)] at hok
      cases hr : readFile fs a.meta with
      | none => rw [hr] at hok; exact absurd hok (by simp)
      | some metaContent =>
          rw [hr] at hok
          simp only [] at hok
          have key : ∃ e, st' = setEntry st guid e := by
            cases hf : a.is_folder with
            | false =>
                cases ha : a.asset with
                | some src =>
                    rw [hf, ha] at hok
                    simp only [] at hok
                    cases hs : readFile fs src with
                    | none => rw [hs] at hok; exact absurd hok (by simp)
                    | some c =>
                        rw [hs] at hok
                        simp only [] at hok
                        exact ⟨_, (Except.ok.inj hok).symm⟩
                | none =>
                    rw [hf, ha] at hok
                    simp only [] at hok
                    exact ⟨_, (Except.ok.inj hok).symm⟩
            | true =>
                rw [hf] at hok
                simp only [] at hok
                exact ⟨_, (Except.ok.inj hok).symm⟩
          obtain ⟨e, he⟩ := key
          subst he
          rw [findEntry_setEntry]
          by_cases hg : guid = g
          · subst hg; simp [hx]
          · simp only [if_neg hg]
            constructor
            · exact Or.inl
            · rintro (h | h)
              · exact h
              · exact absurd (Option.some.inj h) hg

theorem stageAssets_isSome_aux (fs : Node) (assets : List Asset) (st0 st : Staging)
    (h : stageFold fs st0 assets = .ok st) (g : String) :
    (findEntry st g).isSome = true ↔
      (findEntry st0 g).isSome = true ∨ ∃ a ∈ assets, extract_guid fs a.meta = some g := by
  induction assets generalizing st0 with
  | nil =>
      simp only [stageFold] at h
      have : st0 = st := Except.ok.inj h
      subst this
      simp
  | cons a rest ih =>
      rw [stageFold] at h
      cases h1 : stageAsset fs st0 a with
      | error e => rw [h1] at h; exact absurd h (by simp)
      | ok st1 =>
          rw [h1] at h
          rw [ih st1 h, stageAsset_isSome fs st0 st1 a h1 g]
          constructor
          · rintro ((h | h) | h)
            · exact Or.inl h
            · exact Or.inr ⟨a, by simp, h⟩
            · obtain ⟨b, hb, hbg⟩ := h
              exact Or.inr ⟨b, by simp [hb], hbg⟩
          · rintro (h | ⟨b, hb, hbg⟩)
            · exact Or.inl (Or.inl h)
            · rcases List.mem_cons.mp hb with hb | hb
              · exact Or.inl (Or.inr (hb ▸ hbg))
              · exact Or.inr ⟨b, hb, hbg⟩

/-- Claim C2: after a completed staging phase, an identifier-named staging
entry exists if and only if some asset of the enumerated sequence resolved
to that (necessarily non-empty) identifier; assets whose metadata resolves
to no identifier contribute no entry, and the staging loop itself never
aborts on them (it only skips). -/
theorem C2_staging_entries (fs : Node) (assets : List Asset) (st : Staging)
    (hok : stageAssets fs assets = .ok st) (g : String) :
    (findEntry st g).isSome = true ↔
      g ≠ "" ∧ ∃ a ∈ assets, extract_guid fs a.meta = some g := by
  unfold stageAssets at hok
  rw [stageAssets_isSome_aux fs assets [] st hok g]
  constructor
  · rintro (h | h)
    · simp [findEntry] at h
    · obtain ⟨a, ha, hg⟩ := h
      exact ⟨extract_guid_ne_some_empty fs a.meta g hg, a, ha, hg⟩
  · rintro ⟨-, h⟩
    exact Or.inr h

/-- Witness for C2 on `sampleFS`: the staging phase of the sample run
completes, and the entry of the file asset `Foo.cs` exists because its
sidecar resolved to `bbbb2222`. -/
theorem C2_staging_entries_witness :
    (findEntry sampleStaging "bbbb2222").isSome = true := by
  have h := C2_staging_entries sampleFS
    (get_all_assets sampleFS ["Assets", "Deffatest"]) sampleStaging rfl "bbbb2222"
  exact h.mpr (by decide)

/-! ## Claim C7: the extractor never fails and returns the first match -/

theorem searchGuid_eq_none_iff (cs : List Char) :
    searchGuid cs = none ↔ ∀ n, matchGuidAt (cs.drop n) = none := by
  induction cs with
  | nil =>
      constructor
      · intro _ n
        rw [List.drop_nil]
        rfl
      · intro _
        rfl
  | cons c rest ih =>
      rw [searchGuid]
      cases h0 : matchGuidAt (c :: rest) with
      | some t =>
          simp only []
          constructor
          · intro h
            exact absurd h (by simp)
          · intro h
            have h1 := h 0
            rw [List.drop_zero, h0] at h1
            exact absurd h1 (by simp)
      | none =>
          simp only []
          rw [ih]
          constructor
          · intro h n
            cases n with
            | zero => rw [List.drop_zero]; exact h0
            | succ m => rw [List.drop_succ_cons]; exact h m
          · intro h m
            have h1 := h (m + 1)
            rwa [List.drop_succ_cons] at h1

theorem searchGuid_eq_some_of_first (cs : List Char) (n : Nat) (t : String)
    (h : matchGuidAt (cs.drop n) = some t)
    (hmin : ∀ m, m < n → matchGuidAt (cs.drop m) = none) :
    searchGuid cs = some t := by
  induction cs generalizing n with
  | nil =>
      rw [List.drop_nil] at h
      exact absurd h (by simp [matchGuidAt])
  | cons c rest ih =>
      rw [searchGuid]
      cases n with
      | zero =>
          rw [List.drop_zero] at h
          rw [h]
      | succ m =>
          have h0 : matchGuidAt (c :: rest) = none := by
            have h1 := hmin 0 (Nat.succ_pos m)
            rwa [List.drop_zero] at h1
          rw [h0]
          simp only []
          apply ih m
          · rwa [List.drop_succ_cons] at h
          · intro k hk
            have h1 := hmin (k + 1) (Nat.succ_lt_succ hk)
            rwa [List.drop_succ_cons] at h1

/-- Claim C7: the identifier extractor is a total function of the file
state (it never lets an exception escape): on any failing read it returns
absence; on a readable file with no occurrence of the pattern (`guid:` then
whitespace then a lowercase-hex token) at any position it returns absence;
and when the pattern first matches at some position it returns exactly that
first match's captured token. -/
theorem C7_extractor_boundary (fs : Node) (p : Path) :
    (readFile fs p = none → extract_guid fs p = none) ∧
    (∀ content, readFile fs p = some content →
      ((∀ n, matchGuidAt (content.data.drop n) = none) → extract_guid fs p = none) ∧
      (∀ n t, matchGuidAt (content.data.drop n) = some t →
        (∀ m, m < n → matchGuidAt (content.data.drop m) = none) →
        extract_guid fs p = some t)) := by
  constructor
  · intro h
    unfold extract_guid
    rw [h]
  · intro content h
    constructor
    · intro hall
      unfold extract_guid
      rw [h]
      simp only []
      exact (searchGuid_eq_none_iff content.data).mpr hall
    · intro n t hm hmin
      unfold extract_guid
      rw [h]
      simp only []
      exact searchGuid_eq_some_of_first content.data n t hm hmin

/-- Witness for C7 on `sampleFS`: the sidecar of the `Scripts` folder
matches the pattern at position 0 and the extractor returns that first
match's token. -/
theorem C7_extractor_boundary_witness :
    extract_guid sampleFS ["Assets", "Deffatest", "Scripts.meta"] = some "aaaa1111" := by
  refine ((C7_extractor_boundary sampleFS ["Assets", "Deffatest", "Scripts.meta"]).2
    "guid: aaaa1111\n" rfl).2 0 "aaaa1111" (by decide) ?_
  intro m hm
  exact absurd hm (Nat.not_lt_zero m)

/-! ## Claim C9: truncation to the maximal lowercase-hex run -/

theorem isPySpace_spec (c : Char) (h : isPySpace c = true) :
    isLowerHexDigit c = false ∧ c ≠ 'g' := by
  unfold isPySpace at h
  simp only [List.mem_cons, List.not_mem_nil, or_false, decide_eq_true_eq] at h
  rcases h with rfl | rfl | rfl | rfl | rfl | rfl | rfl | rfl | rfl | rfl | rfl | rfl | rfl |
    rfl | rfl | rfl | rfl | rfl | rfl | rfl | rfl | rfl | rfl | rfl | rfl | rfl | rfl | rfl |
    rfl <;> exact ⟨by decide, by decide⟩

theorem matchGuidAt_of_ne_g (c : Char) (l : List Char) (hc : c ≠ 'g') :
    matchGuidAt (c :: l) = none := by
  unfold matchGuidAt
  split
  · rename_i heq
    injection heq with h1 _
    exact absurd h1 hc
  · rfl

theorem searchGuid_of_no_g (l : List Char) (h : ∀ c ∈ l, c ≠ 'g') :
    searchGuid l = none := by
  induction l with
  | nil => rfl
  | cons c rest ih =>
      rw [searchGuid, matchGuidAt_of_ne_g c rest (h c (by simp))]
      exact ih (fun c hc => h c (by simp [hc]))

theorem searchGuid_append_no_g (u l : List Char) (hu : ∀ c ∈ u, c ≠ 'g') :
    searchGuid (u ++ l) = searchGuid l := by
  induction u with
  | nil => rfl
  | cons c rest ih =>
      rw [List.cons_append, searchGuid, matchGuidAt_of_ne_g c _ (hu c (by simp))]
      simp only []
      exact ih (fun c hc => hu c (by simp [hc]))

theorem dropWhile_space_append (ws : List Char) (c0 : Char) (l : List Char)
    (hws : ∀ c ∈ ws, isPySpace c = true) (hc0 : isPySpace c0 = false) :
    (ws ++ c0 :: l).dropWhile isPySpace = c0 :: l := by
  induction ws with
  | nil => simp [List.dropWhile_cons, hc0]
  | cons w ws ih =>
      have hw : isPySpace w = true := hws w (by simp)
      rw [List.cons_append, List.dropWhile_cons, if_pos hw]
      exact ih (fun c hc => hws c (by simp [hc]))

theorem matchGuidAt_marker (ws : List Char) (c0 : Char) (l : List Char)
    (hws : ∀ c ∈ ws, isPySpace c = true) (hc0 : isPySpace c0 = false) :
    matchGuidAt ('g' :: 'u' :: 'i' :: 'd' :: ':' :: (ws ++ c0 :: l)) =
      if isLowerHexDigit c0 then some (String.mk ((c0 :: l).takeWhile isLowerHexDigit))
      else none := by
  unfold matchGuidAt
  simp only []
  rw [dropWhile_space_append ws c0 l hws hc0]
  rw [List.takeWhile_cons]
  cases hx : isLowerHexDigit c0 with
  | true => simp
  | false => simp

/-- Claim C9: when the file's content is some text containing no `g`,
then `guid:`, then whitespace, then a token, the extractor returns the
maximal leading `[a-f0-9]` run of that token when its first character is
in `[a-f0-9]` (so a GUID containing uppercase or other characters after a
lowercase-hex prefix is silently truncated to that prefix), and returns
absence when the token starts with a character outside `[a-f0-9]` (and no
later `g` can start another match). -/
theorem C9_truncation (fs : Node) (p : Path) (content : String)
    (hread : readFile fs p = some content)
    (u ws : List Char) (c0 : Char) (l : List Char)
    (hu : ∀ c ∈ u, c ≠ 'g')
    (hws : ∀ c ∈ ws, isPySpace c = true)
    (hdata : content.data = u ++ 'g' :: 'u' :: 'i' :: 'd' :: ':' :: (ws ++ c0 :: l)) :
    (isLowerHexDigit c0 = true →
      extract_guid fs p = some (String.mk ((c0 :: l).takeWhile isLowerHexDigit))) ∧
    (isLowerHexDigit c0 = false → isPySpace c0 = false → (∀ c ∈ c0 :: l, c ≠ 'g') →
      extract_guid fs p = none) := by
  have hbase : extract_guid fs p = searchGuid content.data := by
    unfold extract_guid
    rw [hread]
  rw [hbase, hdata, searchGuid_append_no_g u _ hu]
  constructor
  · intro hhex
    have hc0 : isPySpace c0 = false := by
      cases hsp : isPySpace c0 with
      | false => rfl
      | true => exact absurd hhex (by simp [(isPySpace_spec c0 hsp).1])
    rw [searchGuid, matchGuidAt_marker ws c0 l hws hc0, if_pos hhex]
  · intro hhex hsp hnog
    rw [searchGuid, matchGuidAt_marker ws c0 l hws hsp, if_neg (by simp [hhex])]
    simp only []
    have h1 : searchGuid ('u' :: 'i' :: 'd' :: ':' :: (ws ++ c0 :: l)) = none := by
      apply searchGuid_of_no_g
      intro c hc
      simp only [List.mem_cons] at hc
      rcases hc with rfl | rfl | rfl | rfl | hc
      · decide
      · decide
      · decide
      · decide
      · rcases List.mem_append.mp hc with hc | hc
        · exact (isPySpace_spec c (hws c hc)).2
        · exact hnog c hc
    exact h1

/-- Witness for C9 on `truncFS`: the sidecar content is
`id: x guid: ab12XY` — the match is preceded by `g`-free text, and the
token `ab12XY` is truncated to its maximal lowercase-hex run `ab12`. -/
theorem C9_truncation_witness :
    extract_guid truncFS ["T.meta"] = some "ab12" := by
  have h := (C9_truncation truncFS ["T.meta"] "id: x guid: ab12XY\n" rfl
    "id: x ".data [' '] 'a' "b12XY\n".data
    (by decide) (by decide) (by decide)).1 (by decide)
  exact h

/-! ## Claims C3 and C8: computation lemmas for one staging step -/

theorem stageAsset_ok_folder (fs : Node) (st : Staging) (a : Asset)
    (guid metaContent : String)
    (hx : extract_guid fs a.meta = some guid)
    (hr : readFile fs a.meta = some metaContent)
    (hf : a.is_folder = true) :
    stageAsset fs st a = .ok (setEntry st guid
      { pathname := a.path, assetMeta := metaContent,
        asset := (findEntry st guid).bind StagedEntry.asset }) := by
  unfold stageAsset
  rw [hx]
  simp only []
  rw [if_neg (extract_guid_ne_some_empty fs a.meta guid hx), hr]
  simp only []
  rw [hf]

theorem stageAsset_ok_file (fs : Node) (st : Staging) (a : Asset)
    (guid metaContent : String) (src : Path) (c : String)
    (hx : extract_guid fs a.meta = some guid)
    (hr : readFile fs a.meta = some metaContent)
    (hf : a.is_folder = false) (ha : a.asset = some src)
    (hs : readFile fs src = some c) :
    stageAsset fs st a = .ok (setEntry st guid
      { pathname := a.path, assetMeta := metaContent, asset := some c }) := by
  unfold stageAsset
  rw [hx]
  simp only []
  rw [if_neg (extract_guid_ne_some_empty fs a.meta guid hx), hr]
  simp only []
  rw [hf, ha]
  simp only []
  rw [hs]

theorem stageAsset_error_file (fs : Node) (st : Staging) (a : Asset)
    (guid metaContent : String) (src : Path)
    (hx : extract_guid fs a.meta = some guid)
    (hr : readFile fs a.meta = some metaContent)
    (hf : a.is_folder = false) (ha : a.asset = some src)
    (hs : readFile fs src = none) :
    stageAsset fs st a = .error ("copy2 failed: " ++ normPath src) := by
  unfold stageAsset
  rw [hx]
  simp only []
  rw [if_neg (extract_guid_ne_some_empty fs a.meta guid hx), hr]
  simp only []
  rw [hf, ha]
  simp only []
  rw [hs]

/-- Claim C3: in a successful staging step for an asset with identifier
`g`, a directory asset creates no `asset` file in entry `g` (the entry's
`asset` file is exactly whatever it was before the step), while a file
asset creates an `asset` file whose content is a byte-identical copy of the
source file. -/
theorem C3_asset_file_copy (fs : Node) (st st' : Staging) (a : Asset) (g : String)
    (hg : extract_guid fs a.meta = some g) (hok : stageAsset fs st a = .ok st') :
    (a.is_folder = true →
      (findEntry st' g).bind StagedEntry.asset = (findEntry st g).bind StagedEntry.asset) ∧
    (∀ p, a.is_folder = false → a.asset = some p →
      (findEntry st' g).bind StagedEntry.asset = readFile fs p) := by
  obtain ⟨metaContent, hr⟩ := extract_guid_readFile_isSome fs a.meta g hg
  constructor
  · intro hf
    rw [stageAsset_ok_folder fs st a g metaContent hg hr hf] at hok
    have : st' = setEntry st g
        { pathname := a.path, assetMeta := metaContent,
          asset := (findEntry st g).bind StagedEntry.asset } := (Except.ok.inj hok).symm
    subst this
    rw [findEntry_setEntry, if_pos rfl]
    rfl
  · intro p hf ha
    cases hs : readFile fs p with
    | none =>
        rw [stageAsset_error_file fs st a g metaContent p hg hr hf ha hs] at hok
        exact absurd hok (by simp)
    | some c =>
        rw [stageAsset_ok_file fs st a g metaContent p c hg hr hf ha hs] at hok
        have : st' = setEntry st g
            { pathname := a.path, assetMeta := metaContent, asset := some c } :=
          (Except.ok.inj hok).symm
        subst this
        rw [findEntry_setEntry, if_pos rfl]
        rfl

/-- Witness for C3 on `sampleFS`: staging the folder asset `Scripts` into
the empty staging directory leaves entry `aaaa1111` without an `asset`
file, and staging the file asset `Foo.cs` makes the `asset` file of entry
`bbbb2222` a copy of `Foo.cs`. -/
theorem C3_asset_file_copy_witness :
    (findEntry [("aaaa1111", scriptsEntry)] "aaaa1111").bind StagedEntry.asset = none ∧
    (findEntry [("bbbb2222", fooEntry)] "bbbb2222").bind StagedEntry.asset =
      some "class Foo" := by
  constructor
  · have h := (C3_asset_file_copy sampleFS [] [("aaaa1111", scriptsEntry)]
      (dirAssetRecord ["Assets", "Deffatest", "Scripts"]) "aaaa1111"
      (by decide) rfl).1 rfl
    rw [h]
    rfl
  · have h := (C3_asset_file_copy sampleFS [] [("bbbb2222", fooEntry)]
      (fileAssetRecord ["Assets", "Deffatest", "Scripts", "Foo.cs"]) "bbbb2222"
      (by decide) rfl).2 ["Assets", "Deffatest", "Scripts", "Foo.cs"] rfl rfl
    rw [h]
    rfl

/-- Counterexample to C8 as stated: in `collideFS` the file asset `B.cs`
and the folder asset `A` both resolve to `abcd`.  Staging the file asset
and then the folder asset leaves an entry that still carries the `asset`
file of the earlier file asset, while staging the folder asset alone
produces an entry with no `asset` file: the surviving entry's files do not
all reflect the later asset. -/
theorem C8_counterexample :
    stageAssets collideFS [fileAssetRecord ["B.cs"], dirAssetRecord ["A"]] =
      .ok [("abcd", collideMergedEntry)] ∧
    stageAssets collideFS [dirAssetRecord ["A"]] =
      .ok [("abcd", collideDirEntry)] ∧
    collideMergedEntry ≠ collideDirEntry :=
  ⟨rfl, rfl, by decide⟩

/-- Claim C8, amended: when a staged asset's identifier already names an
existing staging entry, the step succeeds with no collision detection and
replaces that entry: `pathname` and `asset.meta` always come from the later
asset; the `asset` file is overwritten with the later asset's content when
the later asset is a file asset, but an `asset` file inherited from the
earlier asset persists unchanged when the later asset is a folder asset. -/
theorem C8_silent_overwrite (fs : Node) (st : Staging) (a : Asset)
    (guid metaContent : String) (e : StagedEntry)
    (hprev : findEntry st guid = some e)
    (hx : extract_guid fs a.meta = some guid)
    (hr : readFile fs a.meta = some metaContent) :
    (a.is_folder = true →
      stageAsset fs st a = .ok (setEntry st guid
        { pathname := a.path, assetMeta := metaContent, asset := e.asset })) ∧
    (∀ src c, a.is_folder = false → a.asset = some src → readFile fs src = some c →
      stageAsset fs st a = .ok (setEntry st guid
        { pathname := a.path, assetMeta := metaContent, asset := some c })) := by
  constructor
  · intro hf
    have h := stageAsset_ok_folder fs st a guid metaContent hx hr hf
    rw [hprev] at h
    exact h
  · intro src c hf ha hs
    exact stageAsset_ok_file fs st a guid metaContent src c hx hr hf ha hs

/-- Witness for the amended C8 on `collideFS`: staging the folder asset `A`
on top of the entry left by the file asset `B.cs` succeeds and overwrites
`pathname` and `asset.meta`, keeping the earlier `asset` file. -/
theorem C8_silent_overwrite_witness :
    stageAsset collideFS [("abcd", collideFileEntry)] (dirAssetRecord ["A"]) =
      .ok [("abcd", collideMergedEntry)] := by
  have h := (C8_silent_overwrite collideFS [("abcd", collideFileEntry)]
    (dirAssetRecord ["A"]) "abcd" "guid: abcd" collideFileEntry
    rfl (by decide) rfl).1 rfl
  rw [h]
  rfl

/-! ## Claim C4: the pathname file holds the normalized relative path -/

mutual

theorem walkNode_root_shape (p : Path) (n : Node) :
    ∀ fr ∈ walkNode p n, ∃ s, fr.1 = p ++ s := by
  cases n with
  | file c => intro fr hfr; simp [walkNode] at hfr
  | dir cs =>
      intro fr hfr
      rw [walkNode] at hfr
      rcases List.mem_cons.mp hfr with rfl | hfr
      · exact ⟨[], by simp⟩
      · exact walkChildren_root_shape p cs fr hfr

theorem walkChildren_root_shape (p : Path) (cs : Children) :
    ∀ fr ∈ walkChildren p cs, ∃ s, fr.1 = p ++ s := by
  cases cs with
  | nil => intro fr hfr; simp [walkChildren] at hfr
  | cons name n rest =>
      intro fr hfr
      rw [walkChildren.eq_def] at hfr
      simp only [] at hfr
      rcases List.mem_append.mp hfr with hfr | hfr
      · cases n with
        | file c => simp at hfr
        | dir ds =>
            obtain ⟨s, hs⟩ := walkNode_root_shape (p ++ [name]) (.dir ds) fr hfr
            exact ⟨name :: s, by simp [hs]⟩
      · exact walkChildren_root_shape p rest fr hfr

end

theorem mem_frameAssets (fs : Node) (fr : Frame) (a : Asset)
    (ha : a ∈ frameAssets fs fr) :
    a = dirAssetRecord fr.1 ∨ ∃ f, a = fileAssetRecord (fr.1 ++ [f]) := by
  unfold frameAssets at ha
  rcases List.mem_append.mp ha with h | h
  · left
    cases hp : pathExists fs (metaPath fr.1) with
    | true => rw [hp] at h; simpa using h
    | false => rw [hp] at h; simp at h
  · right
    obtain ⟨f, hf, heq⟩ := List.mem_filterMap.mp h
    cases h1 : hasMetaSuffix f with
    | true => rw [h1] at heq; simp at heq
    | false =>
        rw [h1] at heq
        simp only [Bool.false_eq_true, if_false] at heq
        cases h2 : pathExists fs (metaPath (fr.1 ++ [f])) with
        | true =>
            rw [h2] at heq
            simp only [if_true] at heq
            exact ⟨f, (Option.some.inj heq).symm⟩
        | false => rw [h2] at heq; simp at heq

theorem get_all_assets_shape (fs : Node) (base : Path) (hbase : base ≠ []) (a : Asset)
    (ha : a ∈ get_all_assets fs base) :
    ∃ pc, pc ≠ [] ∧ (a = dirAssetRecord pc ∨ a = fileAssetRecord pc) := by
  unfold get_all_assets at ha
  have hflat : a ∈ (osWalk fs base).flatMap (frameAssets fs) →
      ∃ pc, pc ≠ [] ∧ (a = dirAssetRecord pc ∨ a = fileAssetRecord pc) := by
    intro hmem
    obtain ⟨fr, hfr, hafr⟩ := List.mem_flatMap.mp hmem
    have hshape : ∃ s, fr.1 = base ++ s := by
      unfold osWalk at hfr
      cases hlk : fs.lookup base with
      | none => rw [hlk] at hfr; simp at hfr
      | some n => rw [hlk] at hfr; exact walkNode_root_shape base n fr hfr
    obtain ⟨s, hs⟩ := hshape
    rcases mem_frameAssets fs fr a hafr with rfl | ⟨f, rfl⟩
    · refine ⟨fr.1, ?_, Or.inl rfl⟩
      rw [hs]
      simp [hbase]
    · refine ⟨fr.1 ++ [f], by simp, Or.inr rfl⟩
  cases hx : pathExists fs (metaPath base) with
  | true =>
      rw [hx] at ha
      simp only [if_true] at ha
      rcases List.mem_cons.mp ha with rfl | ha
      · exact ⟨base, hbase, Or.inl rfl⟩
      · exact hflat ha
  | false =>
      rw [hx] at ha
      simp only [Bool.false_eq_true, if_false] at ha
      exact hflat ha

/-- Claim C4: in a successful staging step for an asset of the enumerated
sequence whose sidecar yields an identifier, the `pathname` file written in
the staging entry contains exactly the asset's repository-relative path:
the components joined with `/` and every backslash replaced by a forward
slash, with nothing appended. -/
theorem C4_pathname_content (fs : Node) (base : Path) (hbase : base ≠ [])
    (a : Asset) (g : String) (st st' : Staging)
    (ha : a ∈ get_all_assets fs base)
    (hg : extract_guid fs a.meta = some g)
    (hok : stageAsset fs st a = .ok st') :
    (findEntry st' g).map StagedEntry.pathname = some a.path ∧
    ∃ pc, pc ≠ [] ∧ a.meta = metaPath pc ∧
      a.path = backslashToSlash (String.intercalate "/" pc) := by
  obtain ⟨metaContent, hr⟩ := extract_guid_readFile_isSome fs a.meta g hg
  obtain ⟨pc, hpc, hcase⟩ := get_all_assets_shape fs base hbase a ha
  rcases hcase with rfl | rfl
  · rw [stageAsset_ok_folder fs st _ g metaContent hg hr rfl] at hok
    obtain rfl := Except.ok.inj hok
    refine ⟨?_, pc, hpc, rfl, rfl⟩
    rw [findEntry_setEntry, if_pos rfl]
    rfl
  · cases hs : readFile fs pc with
    | none =>
        rw [stageAsset_error_file fs st _ g metaContent pc hg hr rfl rfl hs] at hok
        exact absurd hok (by simp)
    | some c =>
        rw [stageAsset_ok_file fs st _ g metaContent pc c hg hr rfl rfl hs] at hok
        obtain rfl := Except.ok.inj hok
        refine ⟨?_, pc, hpc, rfl, rfl⟩
        rw [findEntry_setEntry, if_pos rfl]
        rfl

/-- Witness for C4 on `sampleFS`: staging the enumerated file asset
`Foo.cs` writes its `pathname` file with exactly
`Assets/Deffatest/Scripts/Foo.cs`. -/
theorem C4_pathname_content_witness :
    (findEntry [("bbbb2222", fooEntry)] "bbbb2222").map StagedEntry.pathname =
      some "Assets/Deffatest/Scripts/Foo.cs" := by
  have h := (C4_pathname_content sampleFS ["Assets", "Deffatest"] (by decide)
    (fileAssetRecord ["Assets", "Deffatest", "Scripts", "Foo.cs"]) "bbbb2222"
    [] [("bbbb2222", fooEntry)] (by decide) (by decide) rfl).1
  rw [h]
  rfl

/-! ## Claim C5: the archive's members mirror the staging directory -/

theorem makeTar_cons (g : String) (e : StagedEntry) (rest : Staging) :
    makeTar ((g, e) :: rest) = tarAddEntry g e ++ makeTar rest := by
  simp [makeTar]

theorem tarContent_cons_ne (m : TarMember) (tar : List TarMember) (p : List String)
    (hne : m.1 ≠ p) : tarContent (m :: tar) p = tarContent tar p := by
  unfold tarContent
  rw [List.find?_cons_of_neg]
  simp [hne]

theorem tarContent_cons_eq (m : TarMember) (tar : List TarMember) (p : List String)
    (heq : m.1 = p) : tarContent (m :: tar) p = m.2 := by
  unfold tarContent
  rw [List.find?_cons_of_pos]
  simp [heq]

theorem tarContent_tarAddEntry_ne (g0 : String) (e : StagedEntry)
    (tar : List TarMember) (g x : String) (hne : g0 ≠ g) :
    tarContent (tarAddEntry g0 e ++ tar) [g, x] = tarContent tar [g, x] := by
  obtain ⟨pn, mt, ea⟩ := e
  cases ea with
  | none =>
      rw [tarAddEntry]
      simp only []
      rw [List.cons_append, tarContent_cons_ne _ _ _ (by simp),
          List.cons_append, tarContent_cons_ne _ _ _ (by simp [hne]),
          List.cons_append, tarContent_cons_ne _ _ _ (by simp [hne]),
          List.nil_append]
  | some c =>
      rw [tarAddEntry]
      simp only []
      rw [List.cons_append, tarContent_cons_ne _ _ _ (by simp),
          List.cons_append, tarContent_cons_ne _ _ _ (by simp [hne]),
          List.cons_append, tarContent_cons_ne _ _ _ (by simp [hne]),
          List.singleton_append, tarContent_cons_ne _ _ _ (by simp [hne])]

theorem tarContent_tarAddEntry_pathname (g : String) (e : StagedEntry)
    (tar : List TarMember) :
    tarContent (tarAddEntry g e ++ tar) [g, "pathname"] = some e.pathname := by
  rw [tarAddEntry]
  rw [List.cons_append, tarContent_cons_ne _ _ _ (by simp),
      List.cons_append, tarContent_cons_eq _ _ _ rfl]

theorem tarContent_tarAddEntry_assetMeta (g : String) (e : StagedEntry)
    (tar : List TarMember) :
    tarContent (tarAddEntry g e ++ tar) [g, "asset.meta"] = some e.assetMeta := by
  rw [tarAddEntry]
  rw [List.cons_append, tarContent_cons_ne _ _ _ (by simp),
      List.cons_append, tarContent_cons_ne _ _ _ (by simp),
      List.cons_append, tarContent_cons_eq _ _ _ rfl]

theorem tarContent_tarAddEntry_asset (g : String) (e : StagedEntry)
    (tar : List TarMember) (h2 : tarContent tar [g, "asset"] = none) :
    tarContent (tarAddEntry g e ++ tar) [g, "asset"] = e.asset := by
  obtain ⟨pn, mt, ea⟩ := e
  cases ea with
  | none =>
      rw [tarAddEntry]
      simp only []
      rw [List.cons_append, tarContent_cons_ne _ _ _ (by simp),
          List.cons_append, tarContent_cons_ne _ _ _ (by simp),
          List.cons_append, tarContent_cons_ne _ _ _ (by simp),
          List.nil_append, h2]
  | some c =>
      rw [tarAddEntry]
      simp only []
      rw [List.cons_append, tarContent_cons_ne _ _ _ (by simp),
          List.cons_append, tarContent_cons_ne _ _ _ (by simp),
          List.cons_append, tarContent_cons_ne _ _ _ (by simp),
          List.singleton_append, tarContent_cons_eq _ _ _ rfl]

theorem tarContent_makeTar_not_mem (st : Staging) (g x : String)
    (h : g ∉ st.map Prod.fst) : tarContent (makeTar st) [g, x] = none := by
  induction st with
  | nil => rfl
  | cons ge rest ih =>
      obtain ⟨g0, e⟩ := ge
      have hg0 : g0 ≠ g := by
        intro heq
        exact h (by simp [heq])
      rw [makeTar_cons, tarContent_tarAddEntry_ne g0 e _ g x hg0]
      exact ih (fun hmem => h (by simp [hmem]))

theorem tarTopMembers_tarAddEntry (g : String) (e : StagedEntry)
    (tar : List TarMember) :
    tarTopMembers (tarAddEntry g e ++ tar) = g :: tarTopMembers tar := by
  obtain ⟨pn, mt, ea⟩ := e
  cases ea <;> simp [tarAddEntry, tarTopMembers]

theorem tarTopMembers_makeTar (st : Staging) :
    tarTopMembers (makeTar st) = st.map Prod.fst := by
  induction st with
  | nil => rfl
  | cons ge rest ih =>
      obtain ⟨g, e⟩ := ge
      rw [makeTar_cons, tarTopMembers_tarAddEntry, ih, List.map_cons]

theorem tar_extract_eq_findEntry (st : Staging) (g : String) :
    (st.map Prod.fst).Nodup → tarExtractEntry (makeTar st) g = findEntry st g := by
  induction st with
  | nil => intro _; rfl
  | cons ge rest ih =>
      intro hnd
      obtain ⟨g0, e⟩ := ge
      rw [List.map_cons, List.nodup_cons] at hnd
      by_cases hg : g0 = g
      · subst hg
        unfold tarExtractEntry
        rw [makeTar_cons, tarContent_tarAddEntry_pathname,
            tarContent_tarAddEntry_assetMeta,
            tarContent_tarAddEntry_asset g0 e _
              (tarContent_makeTar_not_mem rest g0 "asset" hnd.1)]
        simp only []
        rw [findEntry, if_pos rfl]
      · rw [makeTar_cons]
        unfold tarExtractEntry
        rw [tarContent_tarAddEntry_ne g0 e _ g "pathname" hg,
            tarContent_tarAddEntry_ne g0 e _ g "asset.meta" hg,
            tarContent_tarAddEntry_ne g0 e _ g "asset" hg]
        have h1 := ih hnd.2
        unfold tarExtractEntry at h1
        rw [h1, findEntry, if_neg hg]

/-- Claim C5: the archive built from the staging directory has as top-level
members exactly the staging directory's immediate children (the
identifier-named directories), in order, and each identifier's internal
structure (`pathname`, `asset.meta`, optional `asset`) is preserved: the
entry reconstructed from the archive equals the staged entry. -/
theorem C5_archive_structure (st : Staging) (hnd : (st.map Prod.fst).Nodup) :
    tarTopMembers (makeTar st) = st.map Prod.fst ∧
    ∀ g, tarExtractEntry (makeTar st) g = findEntry st g :=
  ⟨tarTopMembers_makeTar st, fun g => tar_extract_eq_findEntry st g hnd⟩

/-- Witness for C5 on the sample staging directory. -/
theorem C5_archive_structure_witness :
    tarTopMembers (makeTar sampleStaging) = ["00ff00ff", "aaaa1111", "bbbb2222"] ∧
    tarExtractEntry (makeTar sampleStaging) "bbbb2222" = some fooEntry := by
  have h := C5_archive_structure sampleStaging (by decide)
  exact ⟨by rw [h.1]; rfl, by rw [h.2 "bbbb2222"]; rfl⟩

/-! ## Claim C10: a missing source directory does not abort the run -/

theorem create_unitypackage_of_stage_ok (fs : Node) (base : Path) (st : Staging)
    (h : stageAssets fs (get_all_assets fs base) = .ok st) :
    create_unitypackage fs base true =
      { outcome := .ok (makeTar st), temp_dir_exists := false } := by
  unfold create_unitypackage pipelineBody
  rw [h]
  simp

theorem stageAssets_single_folder (fs : Node) (p : Path) :
    ∃ st, stageAssets fs [dirAssetRecord p] = .ok st := by
  have hstep : ∃ st1, stageAsset fs [] (dirAssetRecord p) = .ok st1 := by
    cases hg : extract_guid fs (dirAssetRecord p).meta with
    | none =>
        refine ⟨[], ?_⟩
        unfold stageAsset
        rw [hg]
    | some g =>
        obtain ⟨mc, hr⟩ := extract_guid_readFile_isSome fs _ g hg
        exact ⟨_, stageAsset_ok_folder fs [] (dirAssetRecord p) g mc hg hr rfl⟩
  obtain ⟨st1, h1⟩ := hstep
  refine ⟨st1, ?_⟩
  unfold stageAssets
  rw [stageFold, h1]
  rfl

/-- Claim C10: when the configured source assets directory does not resolve
on disk, the walk yields nothing, so enumeration returns the empty
sequence except for the synthetic root record (present exactly when the
sidecar named after the source directory exists); the staging loop and the
whole pipeline still complete, producing an archive holding only those
entries, with the staging directory cleaned up. -/
theorem C10_missing_source_dir (fs : Node) (base : Path)
    (hbase : fs.lookup base = none) :
    get_all_assets fs base =
      (if pathExists fs (metaPath base) then [dirAssetRecord base] else []) ∧
    ∃ st, stageAssets fs (get_all_assets fs base) = .ok st ∧
      create_unitypackage fs base true =
        { outcome := .ok (makeTar st), temp_dir_exists := false } := by
  have hwalk : osWalk fs base = [] := by
    unfold osWalk
    rw [hbase]
  have hassets : get_all_assets fs base =
      (if pathExists fs (metaPath base) then [dirAssetRecord base] else []) := by
    unfold get_all_assets
    rw [hwalk]
    cases hx : pathExists fs (metaPath base) <;> simp
  refine ⟨hassets, ?_⟩
  cases hx : pathExists fs (metaPath base) with
  | false =>
      have h0 : get_all_assets fs base = [] := by
        rw [hassets, hx]
        simp
      refine ⟨[], ?_, ?_⟩
      · rw [h0]
        rfl
      · exact create_unitypackage_of_stage_ok fs base [] (by rw [h0]; rfl)
  | true =>
      have h0 : get_all_assets fs base = [dirAssetRecord base] := by
        rw [hassets, hx]
        simp
      obtain ⟨st, hst⟩ := stageAssets_single_folder fs base
      refine ⟨st, ?_, ?_⟩
      · rw [h0]
        exact hst
      · exact create_unitypackage_of_stage_ok fs base st (by rw [h0]; exact hst)

/-- Witness for C10 on `sampleFS`: the directory `Assets/Missing` does not
exist but its sidecar `Assets/Missing.meta` does, so enumeration returns
exactly the synthetic root record and the run completes with a cleanup. -/
theorem C10_missing_source_dir_witness :
    get_all_assets sampleFS ["Assets", "Missing"] =
      [dirAssetRecord ["Assets", "Missing"]] ∧
    (create_unitypackage sampleFS ["Assets", "Missing"] true).temp_dir_exists = false := by
  have h := C10_missing_source_dir sampleFS ["Assets", "Missing"] rfl
  constructor
  · rw [h.1]
    rfl
  · obtain ⟨st, -, hrun⟩ := h.2
    rw [hrun]

/-! ## Claim C1: infrastructure on paths, lookup and the walk -/

theorem string_append_cancel (x y s : String) (h : x ++ s = y ++ s) : x = y := by
  have hd := congrArg String.data h
  rw [String.data_append, String.data_append] at hd
  exact String.ext (List.append_cancel_right hd)

theorem metaPath_length : ∀ (p : Path), p ≠ [] → (metaPath p).length = p.length
  | [], h => absurd rfl h
  | [_], _ => rfl
  | x :: y :: rest, _ => by
      rw [metaPath]
      simp only [List.length_cons]
      rw [metaPath_length (y :: rest) (by simp)]
      simp

theorem metaPath_inj : ∀ (p q : Path), p ≠ [] → q ≠ [] → metaPath p = metaPath q → p = q
  | [], _, hp, _, _ => absurd rfl hp
  | _ :: _, [], _, hq, _ => absurd rfl hq
  | [x], [y], _, _, h => by
      rw [metaPath, metaPath] at h
      have h1 : x ++ ".meta" = y ++ ".meta" := by simpa using h
      rw [string_append_cancel x y ".meta" h1]
  | [x], y :: z :: t, _, _, h => by
      have hl := congrArg List.length h
      rw [metaPath_length [x] (by simp), metaPath_length (y :: z :: t) (by simp)] at hl
      simp at hl
  | x :: y :: xs, [z], _, _, h => by
      have hl := congrArg List.length h
      rw [metaPath_length (x :: y :: xs) (by simp), metaPath_length [z] (by simp)] at hl
      simp at hl
  | x :: y :: xs, z :: w :: zs, _, _, h => by
      rw [metaPath, metaPath] at h
      obtain ⟨h1, h2⟩ := List.cons.inj h
      rw [h1, metaPath_inj (y :: xs) (w :: zs) (by simp) (by simp) h2]

theorem dirAssetRecord_inj (p q : Path) (hp : p ≠ []) (hq : q ≠ [])
    (h : dirAssetRecord p = dirAssetRecord q) : p = q := by
  have hm : metaPath p = metaPath q := congrArg Asset.meta h
  exact metaPath_inj p q hp hq hm

theorem fileAssetRecord_inj (p q : Path) (h : fileAssetRecord p = fileAssetRecord q) :
    p = q := by
  have hm : some p = some q := congrArg Asset.asset h
  exact Option.some.inj hm

theorem lookup_append : ∀ (p : Path) (n : Node) (q : Path),
    n.lookup (p ++ q) =
      (match n.lookup p with
       | some m => m.lookup q
       | none => none) := by
  intro p
  induction p with
  | nil => intro n q; cases n <;> rfl
  | cons x rest ih =>
      intro n q
      cases n with
      | file c => rfl
      | dir cs =>
          rw [List.cons_append, Node.lookup, Node.lookup]
          cases hfc : findChild cs x with
          | some m =>
              simp only []
              exact ih m q
          | none => rfl

theorem lookup_singleton (cs : Children) (f : String) :
    Node.lookup (.dir cs) [f] = findChild cs f := by
  rw [Node.lookup]
  cases hfc : findChild cs f with
  | none => rfl
  | some m =>
      simp only []
      cases m <;> rfl

theorem findChild_mem_childNames : ∀ (cs : Children) (name : String) (c : Node),
    findChild cs name = some c → name ∈ childNames cs
  | .nil, _, _, h => by simp [findChild] at h
  | .cons nm n rest, name, c, h => by
      rw [findChild] at h
      by_cases he : nm = name
      · rw [childNames, he]
        simp
      · rw [if_neg he] at h
        rw [childNames]
        exact List.mem_cons_of_mem nm (findChild_mem_childNames rest name c h)

theorem findChild_nodupNames : ∀ (cs : Children) (name : String) (c : Node),
    nodupNamesC cs = true → findChild cs name = some c → nodupNames c = true
  | .nil, _, _, _, h => by simp [findChild] at h
  | .cons nm n rest, name, c, hnd, h => by
      rw [nodupNamesC, Bool.and_eq_true] at hnd
      rw [findChild] at h
      by_cases he : nm = name
      · rw [if_pos he] at h
        rw [← Option.some.inj h]
        exact hnd.1
      · rw [if_neg he] at h
        exact findChild_nodupNames rest name c hnd.2 h

theorem lookup_nodupNames : ∀ (s : Path) (n m : Node),
    nodupNames n = true → n.lookup s = some m → nodupNames m = true
  | [], n, m, hn, h => by
      have h2 : some n = some m := by simpa [Node.lookup] using h
      exact (Option.some.inj h2) ▸ hn
  | x :: rest, n, m, hn, h => by
      cases n with
      | file c => simp [Node.lookup] at h
      | dir cs =>
          rw [Node.lookup] at h
          cases hfc : findChild cs x with
          | none => rw [hfc] at h; simp at h
          | some c =>
              rw [hfc] at h
              simp only [] at h
              have hcs : nodupNamesC cs = true := by
                rw [nodupNames, Bool.and_eq_true] at hn
                exact hn.2
              exact lookup_nodupNames rest c m (findChild_nodupNames cs x c hcs hfc) h

theorem mem_fileNamesC_mem_childNames : ∀ (cs : Children) (f : String),
    f ∈ fileNamesC cs → f ∈ childNames cs
  | .nil, _, h => by simp [fileNamesC] at h
  | .cons nm n rest, f, h => by
      rw [childNames]
      cases n with
      | file c =>
          rw [fileNamesC] at h
          rcases List.mem_cons.mp h with rfl | h
          · simp
          · exact List.mem_cons_of_mem nm (mem_fileNamesC_mem_childNames rest f h)
      | dir ds =>
          rw [fileNamesC] at h
          exact List.mem_cons_of_mem nm (mem_fileNamesC_mem_childNames rest f h)

theorem count_fileNamesC : ∀ (cs : Children) (f : String) (c : String),
    distinctNames (childNames cs) = true → findChild cs f = some (.file c) →
    (fileNamesC cs).count f = 1
  | .nil, _, _, _, h => by simp [findChild] at h
  | .cons nm n rest, f, c, hnd, h => by
      rw [childNames, distinctNames, Bool.and_eq_true] at hnd
      rw [findChild] at h
      by_cases he : nm = f
      · rw [if_pos he] at h
        subst he
        obtain rfl := Option.some.inj h
        have hnotin : nm ∉ childNames rest := by simpa using hnd.1
        have hnotmem : nm ∉ fileNamesC rest :=
          fun hmem => hnotin (mem_fileNamesC_mem_childNames rest nm hmem)
        rw [fileNamesC, List.count_cons, List.count_eq_zero.mpr hnotmem]
        simp
      · rw [if_neg he] at h
        cases n with
        | file c2 =>
            rw [fileNamesC, List.count_cons,
                count_fileNamesC rest f c hnd.2 h]
            simp [he]
        | dir ds =>
            rw [fileNamesC]
            exact count_fileNamesC rest f c hnd.2 h

mutual

theorem walkNode_map_fst (p : Path) (n : Node) :
    (walkNode p n).map Prod.fst = (dirsOf n).map (fun s => p ++ s) := by
  cases n with
  | file c => rfl
  | dir cs =>
      rw [walkNode, dirsOf, List.map_cons, List.map_cons, walkChildren_map_fst p cs]
      simp

theorem walkChildren_map_fst (p : Path) (cs : Children) :
    (walkChildren p cs).map Prod.fst = (dirsChildren cs).map (fun s => p ++ s) := by
  cases cs with
  | nil => rfl
  | cons name n rest =>
      rw [walkChildren.eq_def, dirsChildren.eq_def]
      simp only []
      rw [List.map_append, List.map_append, walkChildren_map_fst p rest]
      congr 1
      cases n with
      | file c => rfl
      | dir ds =>
          rw [walkNode_map_fst (p ++ [name]) (.dir ds), List.map_map]
          apply List.map_congr_left
          intro s _
          simp

end

theorem findChild_cons_self (name : String) (n : Node) (rest : Children) :
    findChild (.cons name n rest) name = some n := by
  rw [findChild.eq_def]
  simp

theorem findChild_cons_ne (name : String) (n : Node) (rest : Children) (key : String)
    (h : name ≠ key) : findChild (.cons name n rest) key = findChild rest key := by
  rw [findChild.eq_def]
  simp [h]

theorem mem_dirsChildren_shape : ∀ (cs : Children) (p : Path), p ∈ dirsChildren cs →
    ∃ nm t, p = nm :: t ∧ nm ∈ childNames cs
  | .nil, p, h => by simp [dirsChildren] at h
  | .cons name n rest, p, h => by
      rw [dirsChildren.eq_def] at h
      simp only [] at h
      rcases List.mem_append.mp h with h | h
      · cases n with
        | file c => simp at h
        | dir ds =>
            obtain ⟨t, _, rfl⟩ := List.mem_map.mp h
            exact ⟨name, t, rfl, by rw [childNames]; simp⟩
      · obtain ⟨nm, t, rfl, hmem⟩ := mem_dirsChildren_shape rest p h
        exact ⟨nm, t, rfl, by rw [childNames]; exact List.mem_cons_of_mem name hmem⟩

theorem count_map_cons (name : String) (l : List Path) (xs : Path) :
    (l.map (fun s => name :: s)).count (name :: xs) = l.count xs := by
  induction l with
  | nil => rfl
  | cons a rest ih =>
      rw [List.map_cons, List.count_cons, List.count_cons, ih]
      by_cases hax : a = xs <;> simp [beq_iff_eq, hax]

theorem dirsChildren_count_not_mem (cs : Children) (x : String) (xs : Path)
    (h : x ∉ childNames cs) : (dirsChildren cs).count (x :: xs) = 0 := by
  rw [List.count_eq_zero]
  intro hmem
  obtain ⟨nm, t, heq, hnm⟩ := mem_dirsChildren_shape cs (x :: xs) hmem
  obtain ⟨rfl, -⟩ := List.cons.inj heq.symm
  exact h hnm

mutual

theorem dirsOf_count (n : Node) (hn : nodupNames n = true) (s : Path) :
    (dirsOf n).count s =
      (match n.lookup s with
       | some (.dir _) => 1
       | _ => 0) := by
  cases n with
  | file c =>
      cases s with
      | nil => rfl
      | cons x rest => rfl
  | dir cs =>
      rw [nodupNames, Bool.and_eq_true] at hn
      rw [dirsOf, List.count_cons, dirsChildren_count cs hn.1 hn.2 s]
      cases s with
      | nil => simp [Node.lookup]
      | cons x rest =>
          simp only []
          rw [Node.lookup]
          cases hfc : findChild cs x with
          | some m => simp
          | none => simp

theorem dirsChildren_count (cs : Children) (hd : distinctNames (childNames cs) = true)
    (hc : nodupNamesC cs = true) (s : Path) :
    (dirsChildren cs).count s =
      (match s with
       | [] => 0
       | x :: rest =>
         match findChild cs x with
         | some m =>
             (match m.lookup rest with
              | some (.dir _) => 1
              | _ => 0)
         | none => 0) := by
  cases cs with
  | nil =>
      cases s with
      | nil => rfl
      | cons x rest => rfl
  | cons name n rest =>
      rw [childNames, distinctNames, Bool.and_eq_true] at hd
      rw [nodupNamesC, Bool.and_eq_true] at hc
      have hnotin : name ∉ childNames rest := by simpa using hd.1
      rw [dirsChildren.eq_def]
      simp only []
      rw [List.count_append]
      cases s with
      | nil =>
          have h2 : (dirsChildren rest).count [] = 0 := by
            rw [dirsChildren_count rest hd.2 hc.2 []]
          cases n with
          | file c => simp [h2]
          | dir ds =>
              rw [h2, List.count_eq_zero.mpr]
              intro hmem
              obtain ⟨t, -, ht⟩ := List.mem_map.mp hmem
              exact List.cons_ne_nil name t ht
      | cons x xs =>
          simp only []
          by_cases hx : name = x
          · subst hx
            rw [findChild_cons_self,
                dirsChildren_count_not_mem rest name xs hnotin]
            cases n with
            | file c =>
                simp only [List.count_nil, List.nil_append]
                cases xs with
                | nil => rfl
                | cons y ys => rfl
            | dir ds =>
                simp only []
                rw [count_map_cons name (dirsOf (.dir ds)) xs,
                    dirsOf_count (.dir ds) hc.1 xs]
                simp
          · rw [findChild_cons_ne name n rest x hx,
                dirsChildren_count rest hd.2 hc.2 (x :: xs)]
            have h1 : (match n with
                | .file _ => ([] : List Path)
                | .dir ds => (dirsOf (.dir ds)).map (fun s => name :: s)).count (x :: xs)
                = 0 := by
              cases n with
              | file c => rfl
              | dir ds =>
                  rw [List.count_eq_zero]
                  intro hmem
                  obtain ⟨t, -, ht⟩ := List.mem_map.mp hmem
                  exact hx (List.cons.inj ht).1
            rw [h1]
            simp

end

mutual

theorem walkNode_frame_shape (p : Path) (n : Node) (hn : nodupNames n = true) :
    ∀ fr ∈ walkNode p n, ∃ s cs2,
      fr = (p ++ s, dirNamesC cs2, fileNamesC cs2) ∧ n.lookup s = some (.dir cs2) := by
  cases n with
  | file c => intro fr hfr; simp [walkNode] at hfr
  | dir cs =>
      intro fr hfr
      rw [walkNode] at hfr
      rcases List.mem_cons.mp hfr with rfl | hfr
      · exact ⟨[], cs, by simp, rfl⟩
      · rw [nodupNames, Bool.and_eq_true] at hn
        obtain ⟨s, cs2, -, hfr2, hlk⟩ := walkChildren_frame_shape p cs hn.1 hn.2 fr hfr
        exact ⟨s, cs2, hfr2, hlk⟩

theorem walkChildren_frame_shape (p : Path) (cs : Children)
    (hd : distinctNames (childNames cs) = true) (hc : nodupNamesC cs = true) :
    ∀ fr ∈ walkChildren p cs, ∃ s cs2, s ≠ [] ∧
      fr = (p ++ s, dirNamesC cs2, fileNamesC cs2) ∧
      Node.lookup (.dir cs) s = some (.dir cs2) := by
  cases cs with
  | nil => intro fr hfr; simp [walkChildren] at hfr
  | cons name n rest =>
      intro fr hfr
      rw [childNames, distinctNames, Bool.and_eq_true] at hd
      rw [nodupNamesC, Bool.and_eq_true] at hc
      have hnotin : name ∉ childNames rest := by simpa using hd.1
      rw [walkChildren.eq_def] at hfr
      simp only [] at hfr
      rcases List.mem_append.mp hfr with hfr | hfr
      · cases n with
        | file c => simp at hfr
        | dir ds =>
            obtain ⟨s2, cs2, hfr2, hlk⟩ :=
              walkNode_frame_shape (p ++ [name]) (.dir ds) hc.1 fr hfr
            refine ⟨name :: s2, cs2, by simp, ?_, ?_⟩
            · rw [hfr2]
              simp
            · rw [Node.lookup, findChild_cons_self]
              exact hlk
      · obtain ⟨s, cs2, hne, hfr2, hlk⟩ :=
          walkChildren_frame_shape p rest hd.2 hc.2 fr hfr
        refine ⟨s, cs2, hne, hfr2, ?_⟩
        obtain ⟨x, xs, rfl⟩ : ∃ x xs, s = x :: xs := by
          cases s with
          | nil => exact absurd rfl hne
          | cons x xs => exact ⟨x, xs, rfl⟩
        rw [Node.lookup] at hlk ⊢
        cases hfc : findChild rest x with
        | none => rw [hfc] at hlk; simp at hlk
        | some m =>
            have hxname : name ≠ x := by
              intro heq
              exact hnotin (heq ▸ findChild_mem_childNames rest x m hfc)
            rw [findChild_cons_ne name n rest x hxname, hfc]
            rw [hfc] at hlk
            exact hlk

end

theorem count_map_append_left (base : Path) (l : List Path) (xs : Path) :
    (l.map (fun s => base ++ s)).count (base ++ xs) = l.count xs := by
  induction l with
  | nil => rfl
  | cons a rest ih =>
      rw [List.map_cons, List.count_cons, List.count_cons, ih]
      by_cases hax : a = xs
      · subst hax
        simp
      · have h1 : ¬(base ++ a = base ++ xs) := fun h => hax (List.append_cancel_left h)
        simp [beq_iff_eq, hax, h1]

theorem count_flatMap_eq_sum {α β : Type} [BEq β] (g : α → List β) (l : List α) (b : β) :
    (l.flatMap g).count b = (l.map (fun a => (g a).count b)).sum := by
  induction l with
  | nil => rfl
  | cons a rest ih =>
      rw [List.flatMap_cons, List.count_append, List.map_cons, List.sum_cons, ih]

theorem count_filterMap_eq_countP {α β : Type} [BEq β] [LawfulBEq β] (f : α → Option β)
    (l : List α) (b : β) :
    (l.filterMap f).count b = l.countP (fun a => f a == some b) := by
  induction l with
  | nil => rfl
  | cons a rest ih =>
      rw [List.filterMap_cons, List.countP_cons]
      cases hfa : f a with
      | none =>
          simp only []
          rw [ih]
          simp
      | some v =>
          simp only []
          rw [List.count_cons, ih]
          by_cases hv : v = b <;> simp [hv]

theorem map_sum_single {α β : Type} [BEq β] [LawfulBEq β] (key : α → β) (g : α → Nat)
    (l : List α) : ∀ (k : β) (x : α),
    (l.map key).count k = 1 →
    (∀ y ∈ l, key y = k → y = x) →
    (∀ y ∈ l, key y ≠ k → g y = 0) →
    (l.map g).sum = g x := by
  induction l with
  | nil => intro k x hcount _ _; simp at hcount
  | cons a rest ih =>
      intro k x hcount huniq hzero
      rw [List.map_cons, List.count_cons] at hcount
      rw [List.map_cons, List.sum_cons]
      by_cases ha : key a = k
      · have hax : a = x := huniq a (by simp) ha
        have h1 : (if (key a == k) = true then 1 else 0) = 1 := by simp [ha]
        rw [h1] at hcount
        have hrest0 : (rest.map key).count k = 0 := by omega
        have hsum0 : (rest.map g).sum = 0 := by
          apply List.sum_eq_zero
          intro v hv
          obtain ⟨y, hy, rfl⟩ := List.mem_map.mp hv
          apply hzero y (List.mem_cons_of_mem a hy)
          intro hk
          exact absurd (List.mem_map.mpr ⟨y, hy, hk⟩) (List.count_eq_zero.mp hrest0)
        rw [hsum0, hax]
        omega
      · have h1 : (if (key a == k) = true then 1 else 0) = 0 := by simp [ha]
        rw [h1] at hcount
        rw [hzero a (by simp) ha]
        have h2 : (rest.map g).sum = g x := by
          apply ih k x (by omega)
          · intro y hy hk
            exact huniq y (List.mem_cons_of_mem a hy) hk
          · intro y hy hk
            exact hzero y (List.mem_cons_of_mem a hy) hk
        omega

theorem mem_files_filterMap (fs : Node) (parent : Path) (fl : List String) (a : Asset)
    (h : a ∈ fl.filterMap (fun file =>
      if hasMetaSuffix file then none
      else if pathExists fs (metaPath (parent ++ [file])) then
        some (fileAssetRecord (parent ++ [file]))
      else none)) :
    ∃ f, a = fileAssetRecord (parent ++ [f]) ∧ hasMetaSuffix f = false ∧
      pathExists fs (metaPath (parent ++ [f])) = true := by
  obtain ⟨f, hf, heq⟩ := List.mem_filterMap.mp h
  cases h1 : hasMetaSuffix f with
  | true => rw [h1] at heq; simp at heq
  | false =>
      rw [h1] at heq
      simp only [Bool.false_eq_true, if_false] at heq
      cases h2 : pathExists fs (metaPath (parent ++ [f])) with
      | true =>
          rw [h2] at heq
          simp only [if_true] at heq
          exact ⟨f, (Option.some.inj heq).symm, h1, h2⟩
      | false => rw [h2] at heq; simp at heq

theorem frameAssets_count_dir_ne (fs : Node) (fr : Frame) (tgt : Path)
    (htgt : tgt ≠ []) (hfr1 : fr.1 ≠ []) (hne : fr.1 ≠ tgt) :
    (frameAssets fs fr).count (dirAssetRecord tgt) = 0 := by
  rw [List.count_eq_zero]
  intro hmem
  rcases mem_frameAssets fs fr _ hmem with heq | ⟨f2, heq⟩
  · exact hne (dirAssetRecord_inj tgt fr.1 htgt hfr1 heq).symm
  · have h2 := congrArg Asset.is_folder heq
    simp [dirAssetRecord, fileAssetRecord] at h2

theorem frameAssets_count_file_ne (fs : Node) (fr : Frame) (parent : Path) (f : String)
    (hne : fr.1 ≠ parent) :
    (frameAssets fs fr).count (fileAssetRecord (parent ++ [f])) = 0 := by
  rw [List.count_eq_zero]
  intro hmem
  rcases mem_frameAssets fs fr _ hmem with heq | ⟨f2, heq⟩
  · have h2 := congrArg Asset.is_folder heq
    simp [dirAssetRecord, fileAssetRecord] at h2
  · have h2 := fileAssetRecord_inj _ _ heq
    exact hne (List.append_inj' h2 rfl).1.symm

theorem frameAssets_count_dir_self (fs : Node) (parent : Path) (dl fl : List String)
    (hmeta : pathExists fs (metaPath parent) = true) :
    (frameAssets fs (parent, dl, fl)).count (dirAssetRecord parent) = 1 := by
  unfold frameAssets
  simp only []
  rw [List.count_append, if_pos hmeta]
  have h2 : (fl.filterMap (fun file =>
      if hasMetaSuffix file then none
      else if pathExists fs (metaPath (parent ++ [file])) then
        some (fileAssetRecord (parent ++ [file]))
      else none)).count (dirAssetRecord parent) = 0 := by
    rw [List.count_eq_zero]
    intro hmem
    obtain ⟨f, heq, -, -⟩ := mem_files_filterMap fs parent fl _ hmem
    have h3 := congrArg Asset.is_folder heq
    simp [dirAssetRecord, fileAssetRecord] at h3
  rw [h2]
  simp

theorem frameAssets_count_file_self (fs : Node) (parent : Path) (cs2 : Children)
    (f c : String)
    (hdn : distinctNames (childNames cs2) = true)
    (hfc : findChild cs2 f = some (.file c))
    (hsuffix : hasMetaSuffix f = false)
    (hmeta : pathExists fs (metaPath (parent ++ [f])) = true) :
    (frameAssets fs (parent, dirNamesC cs2, fileNamesC cs2)).count
      (fileAssetRecord (parent ++ [f])) = 1 := by
  unfold frameAssets
  simp only []
  rw [List.count_append]
  have h1 : (if pathExists fs (metaPath parent) = true
      then [dirAssetRecord parent] else ([] : List Asset)).count
        (fileAssetRecord (parent ++ [f])) = 0 := by
    split
    · rw [List.count_eq_zero]
      intro hmem
      rw [List.mem_singleton] at hmem
      have h3 := congrArg Asset.is_folder hmem
      simp [dirAssetRecord, fileAssetRecord] at h3
    · rfl
  rw [h1, count_filterMap_eq_countP]
  have hcongr : ∀ f' ∈ fileNamesC cs2,
      ((if hasMetaSuffix f' then none
        else if pathExists fs (metaPath (parent ++ [f'])) then
          some (fileAssetRecord (parent ++ [f']))
        else none) == some (fileAssetRecord (parent ++ [f]))) = true ↔
      (f' == f) = true := by
    intro f' _
    by_cases hf' : f' = f
    · subst hf'
      rw [if_neg (by simp [hsuffix]), if_pos hmeta]
      simp
    · have hrec : fileAssetRecord (parent ++ [f']) ≠ fileAssetRecord (parent ++ [f]) := by
        intro heq
        have h3 := fileAssetRecord_inj _ _ heq
        have h4 := (List.append_inj' h3 rfl).2
        exact hf' (List.cons.inj h4).1
      cases h4 : hasMetaSuffix f' with
      | true => simp [hf']
      | false =>
          cases h5 : pathExists fs (metaPath (parent ++ [f'])) with
          | true => simp [hrec, hf']
          | false => simp [hf']
  rw [List.countP_congr hcongr, ← List.count_eq_countP,
      count_fileNamesC cs2 f c hdn hfc]

theorem walk_root_count (base : Path) (nb : Node) (hnodup : nodupNames nb = true)
    (s : Path) (cs2 : Children) (hdir : nb.lookup s = some (.dir cs2)) :
    ((walkNode base nb).map Prod.fst).count (base ++ s) = 1 := by
  rw [walkNode_map_fst, count_map_append_left base (dirsOf nb) s,
      dirsOf_count nb hnodup s, hdir]

/-- Claim C1: `get_all_assets` returns the records of the walk, in walk
order, with the synthetic record for the root folder inserted at the front
exactly when the root's own sidecar exists; and within the walk records,
every directory under the root whose sidecar exists contributes exactly one
folder record, and every non-`.meta` file under the root whose sidecar
exists contributes exactly one file record. -/
theorem C1_enumeration (fs nb : Node) (base : Path) (hbase : base ≠ [])
    (hlook : fs.lookup base = some nb) (hnodup : nodupNames nb = true) :
    (get_all_assets fs base =
      (if pathExists fs (metaPath base) then [dirAssetRecord base] else []) ++
        (osWalk fs base).flatMap (frameAssets fs)) ∧
    (∀ s cs2, nb.lookup s = some (.dir cs2) →
      pathExists fs (metaPath (base ++ s)) = true →
      ((osWalk fs base).flatMap (frameAssets fs)).count
        (dirAssetRecord (base ++ s)) = 1) ∧
    (∀ s f c, nb.lookup (s ++ [f]) = some (.file c) →
      hasMetaSuffix f = false →
      pathExists fs (metaPath (base ++ s ++ [f])) = true →
      ((osWalk fs base).flatMap (frameAssets fs)).count
        (fileAssetRecord (base ++ s ++ [f])) = 1) := by
  have hosw : osWalk fs base = walkNode base nb := by
    unfold osWalk
    rw [hlook]
  refine ⟨?_, ?_, ?_⟩
  · unfold get_all_assets
    cases hx : pathExists fs (metaPath base) <;> simp
  · intro s cs2 hdir hmeta
    rw [hosw, count_flatMap_eq_sum]
    rw [map_sum_single Prod.fst
      (fun fr => (frameAssets fs fr).count (dirAssetRecord (base ++ s)))
      (walkNode base nb) (base ++ s)
      (base ++ s, dirNamesC cs2, fileNamesC cs2)
      (walk_root_count base nb hnodup s cs2 hdir)
      ?_ ?_]
    · exact frameAssets_count_dir_self fs (base ++ s) (dirNamesC cs2)
        (fileNamesC cs2) hmeta
    · intro y hy hk
      obtain ⟨s2, cs3, hy2, hlk2⟩ := walkNode_frame_shape base nb hnodup y hy
      have hs2 : s2 = s := by
        have : base ++ s2 = base ++ s := by rw [← hk, hy2]
        exact List.append_cancel_left this
      subst hs2
      rw [hdir] at hlk2
      obtain rfl : cs3 = cs2 := by
        have h9 := Option.some.inj hlk2.symm
        exact Node.dir.inj h9
      exact hy2
    · intro y hy hk
      obtain ⟨s2, cs3, hy2, -⟩ := walkNode_frame_shape base nb hnodup y hy
      apply frameAssets_count_dir_ne fs y (base ++ s) (by simp [hbase]) ?_ hk
      rw [hy2]
      simp [hbase]
  · intro s f c hfile hsuffix hmeta
    have h1 := lookup_append s nb [f]
    rw [hfile] at h1
    cases hm : nb.lookup s with
    | none => rw [hm] at h1; simp at h1
    | some m =>
        rw [hm] at h1
        simp only [] at h1
        cases m with
        | file c2 => simp [Node.lookup] at h1
        | dir cs2 =>
            rw [lookup_singleton] at h1
            have hfc : findChild cs2 f = some (.file c) := h1.symm
            have hnd2 : nodupNames (.dir cs2) = true :=
              lookup_nodupNames s nb (.dir cs2) hnodup hm
            rw [nodupNames, Bool.and_eq_true] at hnd2
            rw [hosw, count_flatMap_eq_sum]
            rw [map_sum_single Prod.fst
              (fun fr => (frameAssets fs fr).count
                (fileAssetRecord (base ++ s ++ [f])))
              (walkNode base nb) (base ++ s)
              (base ++ s, dirNamesC cs2, fileNamesC cs2)
              (walk_root_count base nb hnodup s cs2 hm)
              ?_ ?_]
            · rw [show base ++ s ++ [f] = (base ++ s) ++ [f] from rfl]
              exact frameAssets_count_file_self fs (base ++ s) cs2 f c
                hnd2.1 hfc hsuffix hmeta
            · intro y hy hk
              obtain ⟨s2, cs3, hy2, hlk2⟩ := walkNode_frame_shape base nb hnodup y hy
              have hs2 : s2 = s := by
                have : base ++ s2 = base ++ s := by rw [← hk, hy2]
                exact List.append_cancel_left this
              subst hs2
              rw [hm] at hlk2
              obtain rfl : cs3 = cs2 := by
                have h9 := Option.some.inj hlk2.symm
                exact Node.dir.inj h9
              exact hy2
            · intro y hy hk
              exact frameAssets_count_file_ne fs y (base ++ s) f hk

/-- Witness for C1 on `sampleFS` from root `Assets/Deffatest`: the folder
asset `Scripts` and the file asset `Foo.cs` each appear exactly once among
the walk's records. -/
theorem C1_enumeration_witness :
    ((osWalk sampleFS ["Assets", "Deffatest"]).flatMap (frameAssets sampleFS)).count
      (dirAssetRecord ["Assets", "Deffatest", "Scripts"]) = 1 ∧
    ((osWalk sampleFS ["Assets", "Deffatest"]).flatMap (frameAssets sampleFS)).count
      (fileAssetRecord ["Assets", "Deffatest", "Scripts", "Foo.cs"]) = 1 := by
  have h := C1_enumeration sampleFS deffatestNode ["Assets", "Deffatest"]
    (by decide) rfl (by decide)
  constructor
  · exact h.2.1 ["Scripts"] scriptsChildren rfl (by decide)
  · exact h.2.2 ["Scripts"] "Foo.cs" "class Foo" rfl (by decide) (by decide)

end CreatePackage
